import Mathlib

/-!
Verification of the candlestick-dashboard core (BolsaStreamlit).

Shallow embedding conventions:
* prices are modelled as rationals (`ℚ`): the Python code manipulates IEEE
  floats, but every property checked here is about comparisons, means and
  exact divisions on concretely given values, for which `ℚ` is faithful;
* timestamps are integers (seconds since an arbitrary epoch); a calendar
  date is an integer day number `d` whose midnight instant is `d * 86400`;
* a pandas `NaN` / `NaT` cell is `Option.none`;
* `sorted`/`sort_values` are modelled with `List.insertionSort`: on the
  values compared here the sort result is uniquely determined by the
  (antisymmetric) order, so the choice of algorithm is immaterial.
-/

/-- One complete OHLC bar of a loaded price series
(a row of the DataFrame returned by `load_prices`). -/
structure Bar where
  ts : ℤ
  Open : ℚ
  High : ℚ
  Low : ℚ
  Close : ℚ
deriving DecidableEq

/-- `data_utils.filter_by_date`: `start_ts` is midnight of `start`,
`end_ts` is `end + 1 day - 1 second`, and the mask keeps rows with
`start_ts <= t <= end_ts`, preserving order (`df.loc[mask]`). -/
def filter_by_date (df : List Bar) (start «end» : ℤ) : List Bar :=
  let start_ts := start * 86400
  let end_ts := («end» + 1) * 86400 - 1
  df.filter fun r => decide (start_ts ≤ r.ts) && decide (r.ts ≤ end_ts)

/-- `np.mean` of a list: sum divided by length. -/
def npMean (xs : List ℚ) : ℚ := xs.sum / (xs.length : ℚ)

/-- The `for level in sorted_levels[1:]` loop of
`graficos_unicos.cluster_levels`. `current` holds the open cluster with its
most recently appended member first (the Python list's `current_cluster[-1]`
is `current.headD 0`); `npMean` only reads the sum and length, so keeping
the cluster reversed is immaterial. The trailing `if current_cluster:`
append is unconditional because `current` is never empty. -/
def clusterLoop (t : ℚ) (clusters current : List ℚ) : List ℚ → List ℚ
  | [] => clusters ++ [npMean current]
  | level :: rest =>
      let last := current.headD 0
      if |level - last| / last * 100 ≤ t then
        clusterLoop t clusters (level :: current) rest
      else
        clusterLoop t (clusters ++ [npMean current]) [level] rest

/-- `graficos_unicos.cluster_levels(levels, threshold_percent)`. -/
def cluster_levels (levels : List ℚ) (threshold_percent : ℚ) : List ℚ :=
  match List.insertionSort (· ≤ ·) levels with
  | [] => []
  | x :: rest => clusterLoop threshold_percent [] [x] rest

/-- Modelled from the spec's reference algorithm (§4.4) for comparison with
`cluster_levels`: group the ascending-sorted levels into maximal runs in
which each level is within `threshold_percent` of the last member of the
open cluster; the open cluster is kept in order, its last member at the
end. -/
def specClustersGo (t : ℚ) (current : List ℚ) : List ℚ → List (List ℚ)
  | [] => [current]
  | level :: rest =>
      let last := current.getLastD 0
      if |level - last| / last * 100 ≤ t then
        specClustersGo t (current ++ [level]) rest
      else
        current :: specClustersGo t [level] rest

/-- Modelled from the spec's reference algorithm (§4.4): sort ascending,
chunk greedily by the last-member percentage rule, and emit each chunk's
arithmetic mean. -/
def cluster_levels_spec (levels : List ℚ) (threshold_percent : ℚ) : List ℚ :=
  match List.insertionSort (· ≤ ·) levels with
  | [] => []
  | x :: rest => (specClustersGo threshold_percent [x] rest).map npMean

/-! ### Pivot detection (`graficos_unicos.detect_support_resistance_pivots`)

`scipy.signal.argrelextrema(data, comparator, order)` delegates to
`_boolrelextrema`, which for each index `i` and each `shift` in
`1..order` demands `comparator(data[i], data.take(i + shift, mode='clip'))`
and `comparator(data[i], data.take(i - shift, mode='clip'))`; `take` with
`mode='clip'` clamps an out-of-range index to `0` or `len - 1`. -/

/-- `np.take(data, i, mode='clip')`: the element at `i` clamped into range
(`0` is returned for the empty array, which never occurs on the indices
used here). -/
def takeClip (data : List ℚ) (i : ℕ) : ℚ := data.getD (min i (data.length - 1)) 0

/-- The per-index test of scipy's `_boolrelextrema`: the comparator holds
against the clipped neighbor at every shift `1..order` on both sides.
`i - shift` needs no lower clamp because natural subtraction truncates
at `0`, exactly matching `mode='clip'`. -/
def relextremaOK (cmp : ℚ → ℚ → Bool) (data : List ℚ) (order i : ℕ) : Bool :=
  (List.range' 1 order).all fun shift =>
    cmp (takeClip data i) (takeClip data (i + shift)) &&
    cmp (takeClip data i) (takeClip data (i - shift))

/-- `scipy.signal.argrelextrema`: the indices (in increasing order) whose
value satisfies the comparator against all clipped neighbors within
`order` positions. -/
def argrelextrema (cmp : ℚ → ℚ → Bool) (data : List ℚ) (order : ℕ) : List ℕ :=
  (List.range data.length).filter (relextremaOK cmp data order)

/-- `np.greater` as used for resistance pivots. -/
def cmpGreater (a b : ℚ) : Bool := decide (b < a)

/-- `np.less` as used for support pivots. -/
def cmpLess (a b : ℚ) : Bool := decide (a < b)

/-- `graficos_unicos.detect_support_resistance_pivots(high_prices,
low_prices, order)`: local maxima of the highs (`np.greater`) give the
resistances, local minima of the lows (`np.less`) give the supports;
`series.iloc[idx]` reads the values at the returned indices. Returns
`(supports, resistances)` as in the source. -/
def detect_support_resistance_pivots (high_prices low_prices : List ℚ)
    (order : ℕ) : List ℚ × List ℚ :=
  let max_idx := argrelextrema cmpGreater high_prices order
  let resistances := max_idx.filterMap fun i => high_prices[i]?
  let min_idx := argrelextrema cmpLess low_prices order
  let supports := min_idx.filterMap fun i => low_prices[i]?
  (supports, resistances)

/-- Modelled from the claim's words (for comparison with `argrelextrema`):
an index is a pivot iff it has `order` neighbors on BOTH sides inside the
window and its value beats every neighbor within `order` positions. -/
def claimPivotIdx (cmp : ℚ → ℚ → Bool) (data : List ℚ) (order : ℕ) : List ℕ :=
  (List.range data.length).filter fun i =>
    decide (order ≤ i) && decide (i + order < data.length) &&
    ((List.range' 1 order).all fun shift =>
      cmp (data.getD i 0) (data.getD (i + shift) 0) &&
      cmp (data.getD i 0) (data.getD (i - shift) 0))

/-! ### Series loader (`data_utils.load_prices`) -/

/-- Which timestamp column `load_prices` selected. -/
inductive DateCol | Datetime | Date
deriving DecidableEq

/-- A row of the raw table read from storage; `none` models a pandas
`NaN`/`NaT` cell (in particular a timestamp `pd.to_datetime` with
`errors="coerce"` failed to parse). Timestamps are already represented
as parsed instants: the utc-parse / tz-convert step of `load_prices`
does not change which rows parse. -/
structure RawRow where
  Datetime : Option ℤ
  Date : Option ℤ
  Open : Option ℚ
  High : Option ℚ
  Low : Option ℚ
  Close : Option ℚ
deriving DecidableEq

/-- The raw table: which columns are physically present, plus its rows. -/
structure RawTable where
  hasDatetime : Bool
  hasDate : Bool
  hasOpen : Bool
  hasHigh : Bool
  hasLow : Bool
  hasClose : Bool
  rows : List RawRow
deriving DecidableEq

/-- The ways `load_prices` can raise.
`formatError` is the explicit `ValueError` for a missing `Date`/`Datetime`
column; `keyError` is the `KeyError` pandas raises from
`dropna(subset=...)` when a price column of the subset is absent;
`emptyError` is the explicit `ValueError` for an empty cleaned table. -/
inductive LoadError | formatError | keyError | emptyError
deriving DecidableEq

/-- The value of the selected timestamp column in a row. -/
def chosenDate (c : DateCol) (r : RawRow) : Option ℤ :=
  match c with
  | .Datetime => r.Datetime
  | .Date => r.Date

/-- `next((c for c in ["Datetime", "Date"] if c in df.columns), None)`. -/
def chosenCol (T : RawTable) : Option DateCol :=
  if T.hasDatetime then some .Datetime
  else if T.hasDate then some .Date
  else none

/-- Row survives `dropna(subset=[date_col, "Open", "High", "Low", "Close"])`. -/
def completeRow (c : DateCol) (r : RawRow) : Bool :=
  (chosenDate c r).isSome && r.Open.isSome && r.High.isSome &&
    r.Low.isSome && r.Close.isSome

/-- The rows kept by the `dropna` of `load_prices` (empty when no
timestamp column exists and the function never reaches the `dropna`). -/
def keptRows (T : RawTable) : List RawRow :=
  match chosenCol T with
  | none => []
  | some c => T.rows.filter (completeRow c)

/-- Sort order of `df.sort_values(date_col)` on cleaned rows. -/
def rowLe (c : DateCol) (a b : RawRow) : Prop :=
  (chosenDate c a).getD 0 ≤ (chosenDate c b).getD 0

instance (c : DateCol) : DecidableRel (rowLe c) := fun _ _ => Int.decLe _ _

instance (c : DateCol) : IsTotal RawRow (rowLe c) := ⟨fun _ _ => le_total _ _⟩

instance (c : DateCol) : IsTrans RawRow (rowLe c) :=
  ⟨fun _ _ _ hab hbd => le_trans hab hbd⟩

/-- `data_utils.load_prices`: pick the timestamp column (`ValueError` if
neither exists), drop rows with an unparseable timestamp or a null price
field (`KeyError` if an `Open`/`High`/`Low`/`Close` column of the
`dropna` subset is missing), fail on an empty remainder, else sort by
timestamp and return the rows with the chosen column's name.
`optimize_dtypes` (float32/int32 narrowing) is not representable in the
`ℚ` value model and narrows no further column set, so it is omitted. -/
def load_prices (T : RawTable) : Except LoadError (List RawRow × DateCol) :=
  match chosenCol T with
  | none => .error .formatError
  | some c =>
      if T.hasOpen && T.hasHigh && T.hasLow && T.hasClose then
        if (T.rows.filter (completeRow c)).isEmpty then .error .emptyError
        else .ok (List.insertionSort (rowLe c) (T.rows.filter (completeRow c)), c)
      else .error .keyError

/-! ### Dual-series aligner (`graficos_comparacion.render`, ratio section)

Models lines 108-135: the union index, `fill_missing` (reindex, forward
fill of `Close`, `combine_first` of `Open`/`High`/`Low` with the filled
close, `dropna(subset=["Close"])`), the intersection of the two filled
indexes, the four ratio columns, and the final drop of non-finite rows.
Timestamps of a loaded series are unique, so `reindex` on the union is a
plain lookup. In the float code a zero divisor produces `inf`/`NaN`,
which the `replace(...).dropna()` removes; in the `ℚ` model that drop is
expressed directly as a zero test on each divisor. -/

/-- `sorted(set(A) | set(B))` on the two series' timestamps. -/
def unionIndex (a b : List Bar) : List ℤ :=
  List.insertionSort (· ≤ ·) ((a.map Bar.ts ++ b.map Bar.ts).dedup)

/-- `df.set_index(date_col).reindex(union_index)`: for each union
timestamp, the series' row there, or an all-NaN row. -/
def reindexOn (df : List Bar) (idx : List ℤ) : List (ℤ × Option Bar) :=
  idx.map fun u => (u, df.find? fun r => decide (r.ts = u))

/-- `Series.ffill()`: carry the last non-null value forward. -/
def ffill (last : Option ℚ) : List (Option ℚ) → List (Option ℚ)
  | [] => []
  | none :: rest => last :: ffill last rest
  | some c :: rest => some c :: ffill (some c) rest

/-- The inner `fill_missing` of the render function: reindex onto the
union, forward-fill `Close`, fill `Open`/`High`/`Low` with the original
value when present else the filled close (`combine_first`), and drop
rows whose filled `Close` is still null. -/
def fill_missing (df : List Bar) (idx : List ℤ) : List (ℤ × Bar) :=
  let aligned := reindexOn df idx
  let close_filled := ffill none (aligned.map fun p => p.2.map Bar.Close)
  (aligned.zip close_filled).filterMap fun pc =>
    match pc.2 with
    | none => none
    | some c =>
        some (pc.1.1,
          { ts := pc.1.1,
            Open := ((pc.1.2.map Bar.Open).getD c),
            High := ((pc.1.2.map Bar.High).getD c),
            Low := ((pc.1.2.map Bar.Low).getD c),
            Close := c })

/-- The ratio pipeline of `graficos_comparacion.render` on two filtered
series: union index, fill both series, intersect the filled indexes
(`Index.intersection` keeps the first index's order), build the ratio
bars (`High = A.High / B.Low`, `Low = A.Low / B.High`), and drop rows
with a non-finite entry (zero divisor in the `ℚ` model). -/
def align_and_ratio (dfa dfb : List Bar) : List (ℤ × Bar) :=
  let ui := unionIndex dfa dfb
  let fa := fill_missing dfa ui
  let fb := fill_missing dfb ui
  let common := (fa.map Prod.fst).filter fun u => (fb.map Prod.fst).contains u
  common.filterMap fun u => do
    let p1 ← fa.find? fun p => decide (p.1 = u)
    let p2 ← fb.find? fun p => decide (p.1 = u)
    let r1 := p1.2
    let r2 := p2.2
    if r2.Open ≠ 0 ∧ r2.Low ≠ 0 ∧ r2.High ≠ 0 ∧ r2.Close ≠ 0 then
      some (u,
        { ts := u,
          Open := r1.Open / r2.Open,
          High := r1.High / r2.Low,
          Low := r1.Low / r2.High,
          Close := r1.Close / r2.Close })
    else none

/-! ### Data refresh (`data_updater.actualizar_datos_parquet`) -/

/-- A table as returned by the external `yfinance` fetch
(`extrae_datos_yf`): which columns are present, and its rows. Cell
values play no role in the refresh control flow, so a row is kept
abstract as its OHLC cells. -/
structure FetchTable where
  hasOpen : Bool
  hasHigh : Bool
  hasLow : Bool
  hasClose : Bool
  hasDate : Bool
  hasDatetime : Bool
  rows : List (Option ℚ × Option ℚ × Option ℚ × Option ℚ)
deriving DecidableEq

/-- `data_updater.optimize_dtypes` on a fetched table: `pd.to_numeric`
with `errors="coerce"` followed by an `astype` narrowing. On the already
numeric `ℚ` cells the coercion is the identity, and float32 narrowing is
not representable in `ℚ`; columns are neither added nor removed and the
row count is unchanged. -/
def optimize_dtypes_upd (t : FetchTable) : FetchTable := t

/-- `data_updater.actualizar_datos_parquet`. `store` is the parquet
file's current contents (`none`: the file does not exist); `fetched` is
what `extrae_datos_yf` returned (`none`: fetch failed or empty history);
`writeOk` is whether `to_parquet` succeeds. `to_parquet` is modelled as
an atomic overwrite: it either fully replaces the file's contents or
raises leaving them unchanged. Returns the function's boolean result and
the file's contents afterwards. -/
def actualizar_datos_parquet (store : Option FetchTable)
    (fetched : Option FetchTable) (writeOk : Bool) :
    Bool × Option FetchTable :=
  match store with
  | none => (false, none)
  | some old =>
      match fetched with
      | none => (false, some old)
      | some t =>
          if t.rows.isEmpty then (false, some old)
          else if !(t.hasOpen && t.hasHigh && t.hasLow && t.hasClose) then
            (false, some old)
          else if !(if t.hasDate then true else t.hasDatetime) then
            (false, some old)
          else if writeOk then (true, some (optimize_dtypes_upd t))
          else (false, some old)

/-- The failure condition of a refresh whose target file exists: fetch
returned nothing or an empty table, a required column is missing, the
timestamp column is missing, or the write raised. -/
def refreshFails (fetched : Option FetchTable) (writeOk : Bool) : Prop :=
  match fetched with
  | none => True
  | some t =>
      t.rows.isEmpty = true ∨
      (t.hasOpen && t.hasHigh && t.hasLow && t.hasClose) = false ∨
      (t.hasDate = false ∧ t.hasDatetime = false) ∨
      writeOk = false

/-! ### Theorems -/

/-- C6: for every chronologically sorted series and every date pair with
`start <= end`, `filter_by_date` returns exactly the subsequence of rows
whose timestamp lies between midnight of `start` and 23:59:59 of `end`:
a subsequence of the input (order preserved), containing a row of the
input iff its timestamp is inside the inclusive window. -/
theorem filter_by_date_exact (df : List Bar) (s e : ℤ)
    (hsorted : List.Chain' (fun a b => a.ts ≤ b.ts) df) (hse : s ≤ e) :
    (filter_by_date df s e).Sublist df ∧
      ∀ r ∈ df, (r ∈ filter_by_date df s e ↔
        s * 86400 ≤ r.ts ∧ r.ts ≤ e * 86400 + 86399) := by
  constructor
  · exact List.filter_sublist df
  · intro r hr
    simp only [filter_by_date, List.mem_filter, Bool.and_eq_true, decide_eq_true_iff]
    constructor
    · rintro ⟨-, h1, h2⟩
      exact ⟨h1, by omega⟩
    · rintro ⟨h1, h2⟩
      exact ⟨hr, h1, by omega⟩

/-- Witness for C6 at a one-bar series and the single-day range 0..0. -/
theorem filter_by_date_exact_witness :
    ((filter_by_date [⟨0, 1, 1, 1, 1⟩] 0 0).Sublist [⟨0, 1, 1, 1, 1⟩] ∧
      ∀ r ∈ [(⟨0, 1, 1, 1, 1⟩ : Bar)], (r ∈ filter_by_date [⟨0, 1, 1, 1, 1⟩] 0 0 ↔
        0 * 86400 ≤ r.ts ∧ r.ts ≤ 0 * 86400 + 86399)) :=
  filter_by_date_exact [⟨0, 1, 1, 1, 1⟩] 0 0 (List.chain'_singleton _) (le_refl 0)

/-- C9: the refresh either leaves the stored parquet contents exactly as
they were (returning `false`) or fully replaces them with the freshly
fetched, dtype-optimized table (returning `true`); and it returns
`false` exactly when the file is absent or the refresh fails (no fetch
data, empty table, missing required or timestamp column, failed write). -/
theorem actualizar_datos_parquet_atomic (store fetched : Option FetchTable)
    (writeOk : Bool) :
    (actualizar_datos_parquet store fetched writeOk).2 =
      (if (actualizar_datos_parquet store fetched writeOk).1 then
        fetched.map optimize_dtypes_upd else store) ∧
    ((actualizar_datos_parquet store fetched writeOk).1 = false ↔
      store = none ∨ refreshFails fetched writeOk) := by
  rcases store with - | old
  · simp [actualizar_datos_parquet]
  · rcases fetched with - | t
    · simp [actualizar_datos_parquet, refreshFails]
    · rcases t with ⟨ho, hh, hl, hc, hd, hdt, rows⟩
      cases ho <;> cases hh <;> cases hl <;> cases hc <;> cases hd <;>
        cases hdt <;> cases writeOk <;> rcases rows with - | ⟨r, rs⟩ <;>
        simp [actualizar_datos_parquet, refreshFails, optimize_dtypes_upd]

/-! ### Clustering lemmas -/

/-- The arithmetic mean does not depend on the order of the members. -/
theorem npMean_reverse (l : List ℚ) : npMean l.reverse = npMean l := by
  simp [npMean, List.sum_reverse]

theorem npMean_singleton (x : ℚ) : npMean [x] = x := by
  simp [npMean]

/-- The last element of a reversed list is its head. -/
theorem reverse_getLastD (l : List ℚ) (d : ℚ) :
    l.reverse.getLastD d = l.headD d := by
  cases l with
  | nil => rfl
  | cons a l => simp [List.getLastD_concat]

/-- The imperative loop of `cluster_levels` computes the means of the
greedy last-member chunks of the spec algorithm (the open cluster is
carried reversed by the loop). -/
theorem clusterLoop_eq_spec (t : ℚ) (rest : List ℚ) :
    ∀ (clusters current : List ℚ),
      clusterLoop t clusters current rest =
        clusters ++ (specClustersGo t current.reverse rest).map npMean := by
  induction rest with
  | nil =>
      intro clusters current
      simp [clusterLoop, specClustersGo, npMean_reverse]
  | cons level rest ih =>
      intro clusters current
      simp only [clusterLoop, specClustersGo, reverse_getLastD]
      by_cases hc : |level - current.headD 0| / current.headD 0 * 100 ≤ t
      · rw [if_pos hc, if_pos hc, ih]
        simp
      · rw [if_neg hc, if_neg hc, ih]
        simp [npMean_reverse]

/-- C5: `cluster_levels` coincides with the spec's reference clustering
algorithm (sort ascending, chunk greedily by percentage distance to the
cluster's last member, emit each chunk's mean), and on the scenario
`[99.0, 99.01, 105.0]` with a 1% threshold it merges the first two
levels into their mean 99.005 and keeps 105.0 separate, returning a
list of length 2. -/
theorem cluster_levels_matches_spec :
    (∀ (levels : List ℚ) (t : ℚ),
      cluster_levels levels t = cluster_levels_spec levels t) ∧
    cluster_levels [99, 9901/100, 105] 1 = [19801/200, 105] ∧
    (cluster_levels [99, 9901/100, 105] 1).length = 2 := by
  have hscen : cluster_levels [99, 9901/100, 105] 1 = [19801/200, 105] := by
    norm_num [cluster_levels, clusterLoop, npMean, List.insertionSort,
      List.orderedInsert, abs]
  refine ⟨?_, hscen, by rw [hscen]; rfl⟩
  intro levels t
  unfold cluster_levels cluster_levels_spec
  cases h : List.insertionSort (· ≤ ·) levels with
  | nil => rfl
  | cons x rest =>
      show clusterLoop t [] [x] rest = (specClustersGo t [x] rest).map npMean
      rw [clusterLoop_eq_spec]
      simp

/-- The sum of a constant list. -/
theorem list_sum_const (g : List ℚ) (v : ℚ) (h : ∀ x ∈ g, x = v) :
    g.sum = (g.length : ℚ) * v := by
  induction g with
  | nil => simp
  | cons a l ih =>
      have ha : a = v := h a (List.mem_cons_self a l)
      have hl := ih fun x hx => h x (List.mem_cons_of_mem a hx)
      simp [ha, hl]
      ring

/-- The mean of a nonempty constant list is the constant. -/
theorem npMean_const (g : List ℚ) (v : ℚ) (hne : g ≠ [])
    (h : ∀ x ∈ g, x = v) : npMean g = v := by
  have hlen : (0 : ℚ) < g.length := by
    exact_mod_cast List.length_pos.mpr hne
  rw [npMean, list_sum_const g v h, mul_comm, mul_div_assoc, div_self (ne_of_gt hlen), mul_one]

/-- The last element of a nonempty constant list is the constant. -/
theorem getLastD_const (g : List ℚ) (v d : ℚ) (hne : g ≠ [])
    (h : ∀ x ∈ g, x = v) : g.getLastD d = v := by
  induction g generalizing d with
  | nil => exact absurd rfl hne
  | cons a l ih =>
      rcases l with - | ⟨b, l'⟩
      · simpa using h a (by simp)
      · rw [List.getLastD_cons]
        exact ih a (by simp) (fun x hx => h x (List.mem_cons_of_mem a hx))

/-- A mean is at most any upper bound of the members. -/
theorem npMean_le_of_forall_le (g : List ℚ) (hne : g ≠ []) (M : ℚ)
    (h : ∀ x ∈ g, x ≤ M) : npMean g ≤ M := by
  have hlen : (0 : ℚ) < g.length := by
    exact_mod_cast List.length_pos.mpr hne
  rw [npMean, div_le_iff₀ hlen]
  calc g.sum ≤ g.length • M := List.sum_le_card_nsmul g M h
    _ = M * g.length := by rw [nsmul_eq_mul]; ring

/-- A mean is at least any lower bound of the members. -/
theorem le_npMean_of_forall_le (g : List ℚ) (hne : g ≠ []) (m : ℚ)
    (h : ∀ x ∈ g, m ≤ x) : m ≤ npMean g := by
  have hlen : (0 : ℚ) < g.length := by
    exact_mod_cast List.length_pos.mpr hne
  rw [npMean, le_div_iff₀ hlen]
  calc m * g.length = g.length • m := by rw [nsmul_eq_mul]; ring
    _ ≤ g.sum := List.card_nsmul_le_sum g m h

/-- Every nonempty list of rationals has a least member. -/
theorem exists_min_mem (g : List ℚ) (hne : g ≠ []) :
    ∃ a ∈ g, ∀ x ∈ g, a ≤ x := by
  induction g with
  | nil => exact absurd rfl hne
  | cons a l ih =>
      by_cases hl : l = []
      · subst hl
        exact ⟨a, by simp⟩
      · obtain ⟨c, hc, hcall⟩ := ih hl
        rcases le_total a c with h | h
        · refine ⟨a, List.mem_cons_self a l, fun x hx => ?_⟩
          rcases List.mem_cons.mp hx with rfl | hx
          · exact le_refl _
          · exact le_trans h (hcall x hx)
        · refine ⟨c, List.mem_cons_of_mem a hc, fun x hx => ?_⟩
          rcases List.mem_cons.mp hx with rfl | hx
          · exact h
          · exact hcall x hx

/-- Every nonempty list of rationals has a greatest member. -/
theorem exists_max_mem (g : List ℚ) (hne : g ≠ []) :
    ∃ b ∈ g, ∀ x ∈ g, x ≤ b := by
  induction g with
  | nil => exact absurd rfl hne
  | cons a l ih =>
      by_cases hl : l = []
      · subst hl
        exact ⟨a, by simp⟩
      · obtain ⟨c, hc, hcall⟩ := ih hl
        rcases le_total a c with h | h
        · refine ⟨c, List.mem_cons_of_mem a hc, fun x hx => ?_⟩
          rcases List.mem_cons.mp hx with rfl | hx
          · exact h
          · exact hcall x hx
        · refine ⟨a, List.mem_cons_self a l, fun x hx => ?_⟩
          rcases List.mem_cons.mp hx with rfl | hx
          · exact le_refl _
          · exact le_trans (hcall x hx) h

/-- The chunks of the greedy clustering concatenate back to the input. -/
theorem specClustersGo_join (t : ℚ) (rest : List ℚ) :
    ∀ current, (specClustersGo t current rest).flatten = current ++ rest := by
  induction rest with
  | nil => intro current; simp [specClustersGo]
  | cons level rest ih =>
      intro current
      simp only [specClustersGo]
      by_cases hc : |level - current.getLastD 0| / current.getLastD 0 * 100 ≤ t
      · rw [if_pos hc, ih]
        simp
      · rw [if_neg hc]
        simp only [List.flatten_cons, ih]
        simp

/-- Every chunk of the greedy clustering is nonempty. -/
theorem specClustersGo_chunks_ne_nil (t : ℚ) (rest : List ℚ) :
    ∀ current, current ≠ [] → ∀ g ∈ specClustersGo t current rest, g ≠ [] := by
  induction rest with
  | nil =>
      intro current hne g hg
      simp only [specClustersGo, List.mem_singleton] at hg
      subst hg
      exact hne
  | cons level rest ih =>
      intro current hne g hg
      simp only [specClustersGo] at hg
      by_cases hc : |level - current.getLastD 0| / current.getLastD 0 * 100 ≤ t
      · rw [if_pos hc] at hg
        exact ih (current ++ [level]) (by simp) g hg
      · rw [if_neg hc] at hg
        rcases List.mem_cons.mp hg with rfl | hg
        · exact hne
        · exact ih [level] (by simp) g hg

/-- There are at most as many chunks as clustered elements. -/
theorem specClustersGo_length (t : ℚ) (rest : List ℚ) :
    ∀ current, (specClustersGo t current rest).length ≤ rest.length + 1 := by
  induction rest with
  | nil => intro current; simp [specClustersGo]
  | cons level rest ih =>
      intro current
      simp only [specClustersGo]
      by_cases hc : |level - current.getLastD 0| / current.getLastD 0 * 100 ≤ t
      · rw [if_pos hc]
        calc (specClustersGo t (current ++ [level]) rest).length
            ≤ rest.length + 1 := ih _
          _ ≤ (level :: rest).length + 1 := by simp
      · rw [if_neg hc]
        have := ih [level]
        simp only [List.length_cons]
        omega

/-- Chunking a sorted list produces a sorted list of chunk means. -/
theorem specClustersGo_sorted_means (t : ℚ) (rest : List ℚ) :
    ∀ current, current ≠ [] → List.Sorted (· ≤ ·) (current ++ rest) →
      List.Sorted (· ≤ ·) ((specClustersGo t current rest).map npMean) := by
  induction rest with
  | nil =>
      intro current hne hs
      simp [specClustersGo]
  | cons level rest ih =>
      intro current hne hs
      have hparts := List.pairwise_append.mp hs
      simp only [specClustersGo]
      by_cases hc : |level - current.getLastD 0| / current.getLastD 0 * 100 ≤ t
      · rw [if_pos hc]
        apply ih (current ++ [level]) (by simp)
        rw [List.append_assoc]
        simpa using hs
      · rw [if_neg hc]
        simp only [List.map_cons]
        rw [List.sorted_cons]
        refine ⟨?_, ih [level] (by simp) (by simpa using hparts.2.1)⟩
        intro z hz
        obtain ⟨g, hg, rfl⟩ := List.mem_map.mp hz
        have hgne : g ≠ [] := specClustersGo_chunks_ne_nil t rest [level] (by simp) g hg
        have hgsub : ∀ x ∈ g, x ∈ level :: rest := by
          intro x hx
          have hxj : x ∈ (specClustersGo t [level] rest).flatten :=
            List.mem_flatten.mpr ⟨g, hg, hx⟩
          rw [specClustersGo_join] at hxj
          simpa using hxj
        apply le_npMean_of_forall_le g hgne
        intro v hv
        exact npMean_le_of_forall_le current hne v
          (fun a ha => hparts.2.2 a ha v (hgsub v hv))

/-- Unfolding `cluster_levels` when the sorted input is known. -/
theorem cluster_levels_eq_chunks (levels : List ℚ) (t x : ℚ) (rest : List ℚ)
    (h : List.insertionSort (· ≤ ·) levels = x :: rest) :
    cluster_levels levels t = (specClustersGo t [x] rest).map npMean := by
  unfold cluster_levels
  rw [h]
  show clusterLoop t [] [x] rest = _
  rw [clusterLoop_eq_spec]
  simp

/-- C10: on a nonempty list of positive levels, `cluster_levels` returns
a non-decreasing sequence, no longer than its input, whose every
representative lies between some input level below it and some input
level above it (hence between the input's minimum and maximum). -/
theorem cluster_levels_invariants (levels : List ℚ) (t : ℚ)
    (hne : levels ≠ []) (hpos : ∀ x ∈ levels, 0 < x) :
    List.Sorted (· ≤ ·) (cluster_levels levels t) ∧
      (cluster_levels levels t).length ≤ levels.length ∧
      ∀ y ∈ cluster_levels levels t,
        (∃ a ∈ levels, a ≤ y) ∧ ∃ b ∈ levels, y ≤ b := by
  cases h : List.insertionSort (· ≤ ·) levels with
  | nil =>
      exfalso
      have hp := List.perm_insertionSort (· ≤ ·) levels
      rw [h] at hp
      exact hne (hp.symm.eq_nil)
  | cons x rest =>
      have hp := List.perm_insertionSort (· ≤ ·) levels
      rw [h] at hp
      have hmem : ∀ z ∈ x :: rest, z ∈ levels := fun z hz => hp.mem_iff.mp hz
      have hsorted : List.Sorted (· ≤ ·) (x :: rest) := by
        have := List.sorted_insertionSort (· ≤ ·) levels
        rwa [h] at this
      have hL := cluster_levels_eq_chunks levels t x rest h
      refine ⟨?_, ?_, ?_⟩
      · rw [hL]
        exact specClustersGo_sorted_means t rest [x] (by simp) (by simpa using hsorted)
      · rw [hL, List.length_map]
        have h1 := specClustersGo_length t rest [x]
        have h2 : levels.length = rest.length + 1 := by
          have := List.length_insertionSort (· ≤ ·) levels
          rw [h] at this
          simpa using this.symm
        omega
      · intro y hy
        rw [hL] at hy
        obtain ⟨g, hg, rfl⟩ := List.mem_map.mp hy
        have hgne : g ≠ [] := specClustersGo_chunks_ne_nil t rest [x] (by simp) g hg
        have hgsub : ∀ z ∈ g, z ∈ levels := by
          intro z hz
          have hzj : z ∈ (specClustersGo t [x] rest).flatten :=
            List.mem_flatten.mpr ⟨g, hg, hz⟩
          rw [specClustersGo_join] at hzj
          exact hmem z (by simpa using hzj)
        obtain ⟨a, ha, hamin⟩ := exists_min_mem g hgne
        obtain ⟨b, hb, hbmax⟩ := exists_max_mem g hgne
        exact ⟨⟨a, hgsub a ha, le_npMean_of_forall_le g hgne a hamin⟩,
          ⟨b, hgsub b hb, npMean_le_of_forall_le g hgne b hbmax⟩⟩

/-- Witness for C10 at the two-level list `[2, 1]`. -/
theorem cluster_levels_invariants_witness :
    List.Sorted (· ≤ ·) (cluster_levels [2, 1] 0) ∧
      (cluster_levels [2, 1] 0).length ≤ ([2, 1] : List ℚ).length ∧
      ∀ y ∈ cluster_levels [2, 1] 0,
        (∃ a ∈ ([2, 1] : List ℚ), a ≤ y) ∧ ∃ b ∈ ([2, 1] : List ℚ), y ≤ b :=
  cluster_levels_invariants [2, 1] 0 (by simp) (by norm_num)

/-- When every adjacent pair of the sorted input fails the merge test,
the clustering loop emits every level unchanged. -/
theorem clusterLoop_of_chain_split (t : ℚ) (rest : List ℚ) :
    ∀ (clusters : List ℚ) (x : ℚ),
      List.Chain' (fun a b => ¬(|b - a| / a * 100 ≤ t)) (x :: rest) →
      clusterLoop t clusters [x] rest = clusters ++ x :: rest := by
  induction rest with
  | nil =>
      intro clusters x h
      simp [clusterLoop, npMean_singleton]
  | cons level rest ih =>
      intro clusters x h
      rw [List.chain'_cons] at h
      simp only [clusterLoop, List.headD_cons]
      rw [if_neg h.1, ih (clusters ++ [npMean [x]]) level h.2]
      simp [npMean_singleton]

/-- Under pairwise percentage separation, every chunk of the greedy
clustering is a constant run, so the chunk means are the run values
themselves, the first being the open cluster's value, and consecutive
means always fail the merge test. -/
theorem specClustersGo_const (t : ℚ) (rest : List ℚ) :
    ∀ (current : List ℚ) (v : ℚ),
      current ≠ [] → (∀ x ∈ current, x = v) → 0 < v →
      (∀ x ∈ rest, 0 < x) → List.Sorted (· ≤ ·) rest → (∀ x ∈ rest, v ≤ x) →
      (∀ a ∈ v :: rest, ∀ b ∈ v :: rest, a < b → (b - a) / a * 100 > t) →
      ∃ out, (specClustersGo t current rest).map npMean = v :: out ∧
        List.Chain' (fun a b => ¬(|b - a| / a * 100 ≤ t)) (v :: out) := by
  induction rest with
  | nil =>
      intro current v hne hconst _ _ _ _ _
      exact ⟨[], by simp [specClustersGo, npMean_const current v hne hconst], by simp⟩
  | cons level rest ih =>
      intro current v hne hconst hv hpos hsorted hlow hsep
      have hlv : v ≤ level := hlow level (List.mem_cons_self _ _)
      have hlast : current.getLastD 0 = v := getLastD_const current v 0 hne hconst
      have hcs := List.sorted_cons.mp hsorted
      simp only [specClustersGo, hlast]
      by_cases hc : |level - v| / v * 100 ≤ t
      · have hlevel : level = v := by
          by_contra hne'
          have hlt : v < level := lt_of_le_of_ne hlv (Ne.symm hne')
          have hgt := hsep v (List.mem_cons_self _ _) level
            (List.mem_cons_of_mem _ (List.mem_cons_self _ _)) hlt
          rw [abs_of_nonneg (by linarith)] at hc
          linarith
        have hsep1 : ∀ a ∈ v :: rest, ∀ b ∈ v :: rest, a < b →
            (b - a) / a * 100 > t := by
          have hsub : ∀ z ∈ v :: rest, z ∈ v :: level :: rest := by
            intro z hz
            rcases List.mem_cons.mp hz with rfl | hz
            · exact List.mem_cons_self _ _
            · exact List.mem_cons_of_mem _ (List.mem_cons_of_mem _ hz)
          intro a ha b hb hab
          exact hsep a (hsub a ha) b (hsub b hb) hab
        rw [if_pos hc]
        refine ih (current ++ [level]) v (by simp) ?_ hv
          (fun x hx => hpos x (List.mem_cons_of_mem _ hx))
          hcs.2 (fun x hx => hlow x (List.mem_cons_of_mem _ hx)) hsep1
        intro x hx
        rcases List.mem_append.mp hx with hx | hx
        · exact hconst x hx
        · simpa [hlevel] using hx
      · have hsep2 : ∀ a ∈ level :: rest, ∀ b ∈ level :: rest, a < b →
            (b - a) / a * 100 > t := by
          intro a ha b hb hab
          exact hsep a (List.mem_cons_of_mem _ ha) b (List.mem_cons_of_mem _ hb) hab
        obtain ⟨out', hout', hchain'⟩ := ih [level] level (by simp) (by simp)
          (hpos level (List.mem_cons_self _ _))
          (fun x hx => hpos x (List.mem_cons_of_mem _ hx))
          hcs.2 hcs.1 hsep2
        rw [if_neg hc]
        refine ⟨level :: out', ?_, ?_⟩
        · simp only [List.map_cons, hout', npMean_const current v hne hconst]
        · rw [List.chain'_cons]
          exact ⟨hc, hchain'⟩

/-- C7: when all levels are positive and every pair of distinct levels
is separated by more than `threshold_percent` percent of the smaller,
`cluster_levels` is idempotent: re-clustering its own output with the
same threshold returns that output unchanged. -/
theorem cluster_levels_idempotent (levels : List ℚ) (t : ℚ)
    (hpos : ∀ x ∈ levels, 0 < x)
    (hsep : ∀ a ∈ levels, ∀ b ∈ levels, a < b → (b - a) / a * 100 > t) :
    cluster_levels (cluster_levels levels t) t = cluster_levels levels t := by
  cases h : List.insertionSort (· ≤ ·) levels with
  | nil =>
      have hnil : cluster_levels levels t = [] := by
        unfold cluster_levels
        rw [h]
      rw [hnil]
      rfl
  | cons x rest =>
      have hp := List.perm_insertionSort (· ≤ ·) levels
      rw [h] at hp
      have hmem : ∀ z ∈ x :: rest, z ∈ levels := fun z hz => hp.mem_iff.mp hz
      have hsorted : List.Sorted (· ≤ ·) (x :: rest) := by
        have := List.sorted_insertionSort (· ≤ ·) levels
        rwa [h] at this
      have hcs := List.sorted_cons.mp hsorted
      have hL := cluster_levels_eq_chunks levels t x rest h
      have hsep' : ∀ a ∈ x :: rest, ∀ b ∈ x :: rest, a < b →
          (b - a) / a * 100 > t :=
        fun a ha b hb hab => hsep a (hmem a ha) b (hmem b hb) hab
      obtain ⟨out, hout, hchain⟩ := specClustersGo_const t rest [x] x (by simp)
        (by simp) (hpos x (hmem x (List.mem_cons_self _ _)))
        (fun z hz => hpos z (hmem z (List.mem_cons_of_mem _ hz)))
        hcs.2 hcs.1 hsep'
      have hLsorted : List.Sorted (· ≤ ·) (x :: out) := by
        rw [← hout]
        exact specClustersGo_sorted_means t rest [x] (by simp) (by simpa using hsorted)
      rw [hL, hout]
      unfold cluster_levels
      rw [hLsorted.insertionSort_eq]
      show clusterLoop t [] [x] out = x :: out
      rw [clusterLoop_of_chain_split t out [] x hchain]
      simp

/-- Witness for C7 at the well-separated levels `[100, 110]` with a 5%
threshold. -/
theorem cluster_levels_idempotent_witness :
    cluster_levels (cluster_levels [100, 110] 5) 5 =
      cluster_levels [100, 110] 5 :=
  cluster_levels_idempotent [100, 110] 5 (by norm_num)
    (by
      intro a ha b hb hab
      fin_cases ha <;> fin_cases hb <;> norm_num at hab ⊢)

/-! ### Pivot lemmas -/

/-- Characterization of scipy's clip-mode local extrema for any
irreflexive comparator: an index is marked iff it is neither the first
nor the last bar and its value beats every existing bar within `order`
positions (the clamped comparisons at the window edge collapse onto the
existing neighbors, except at the two boundary bars, where they compare
the bar with itself and always fail). -/
theorem argrelextrema_mem_iff (cmp : ℚ → ℚ → Bool)
    (hirr : ∀ a, cmp a a = false) (data : List ℚ) (order i : ℕ)
    (hord : 1 ≤ order) :
    i ∈ argrelextrema cmp data order ↔
      0 < i ∧ i + 1 < data.length ∧
        ∀ j < data.length, i - order ≤ j → j ≤ i + order → j ≠ i →
          cmp (data.getD i 0) (data.getD j 0) = true := by
  set n := data.length with hn
  have hclip : ∀ k, k < n → takeClip data k = data.getD k 0 := by
    intro k hk
    unfold takeClip
    rw [← hn, min_eq_left (by omega)]
  rw [argrelextrema, List.mem_filter, List.mem_range, ← hn]
  rw [relextremaOK, List.all_eq_true]
  constructor
  · rintro ⟨hi, hall⟩
    have hstep : ∀ shift, 1 ≤ shift → shift ≤ order →
        cmp (takeClip data i) (takeClip data (i + shift)) = true ∧
        cmp (takeClip data i) (takeClip data (i - shift)) = true := by
      intro shift h1 h2
      simpa using hall shift (List.mem_range'_1.mpr ⟨h1, by omega⟩)
    have hpos : 0 < i := by
      by_contra hi0
      have hi0' : i = 0 := by omega
      have h := (hstep 1 (le_refl 1) hord).2
      rw [hi0', Nat.zero_sub, hclip 0 (by omega), hirr] at h
      exact Bool.false_ne_true h
    have htop : i + 1 < n := by
      by_contra htop
      have hieq : i = n - 1 := by omega
      have h := (hstep 1 (le_refl 1) hord).1
      have hcl : takeClip data (i + 1) = data.getD i 0 := by
        unfold takeClip
        rw [← hn, min_eq_right (by omega)]
        congr 1
        omega
      rw [hclip i hi, hcl, hirr] at h
      exact Bool.false_ne_true h
    refine ⟨hpos, htop, ?_⟩
    intro j hjn hjlo hjhi hjne
    rcases lt_or_gt_of_ne hjne with hj | hj
    · have h := (hstep (i - j) (by omega) (by omega)).2
      have hcl : takeClip data (i - (i - j)) = data.getD j 0 := by
        unfold takeClip
        rw [← hn]
        congr 1
        omega
      rwa [hclip i hi, hcl] at h
    · have h := (hstep (j - i) (by omega) (by omega)).1
      have hcl : takeClip data (i + (j - i)) = data.getD j 0 := by
        unfold takeClip
        rw [← hn]
        congr 1
        omega
      rwa [hclip i hi, hcl] at h
  · rintro ⟨hpos, htop, hj⟩
    refine ⟨by omega, ?_⟩
    intro shift hshift
    obtain ⟨h1, h2⟩ := List.mem_range'_1.mp hshift
    have h2 : shift ≤ order := by omega
    rw [Bool.and_eq_true]
    constructor
    · have hjval := hj (min (i + shift) (n - 1)) (by omega) (by omega)
        (by omega) (by omega)
      have hcl : takeClip data (i + shift) = data.getD (min (i + shift) (n - 1)) 0 := by
        unfold takeClip
        rw [← hn]
      rwa [hclip i (by omega), hcl]
    · have hjval := hj (i - shift) (by omega) (by omega) (by omega) (by omega)
      have hcl : takeClip data (i - shift) = data.getD (i - shift) 0 := by
        unfold takeClip
        rw [← hn]
        congr 1
        omega
      rwa [hclip i (by omega), hcl]

/-- C1 (amended): `detect_support_resistance_pivots` marks exactly the
indices returned by `argrelextrema`, and for every `pivot_order >= 1` a
bar is marked iff it is neither the very first nor the very last bar of
the window and its high (resp. low) is strictly greater (resp. smaller)
than that of every EXISTING bar within `pivot_order` positions, the
comparison range being clamped to the window: near-boundary bars other
than the two endpoint bars can be pivots. -/
theorem detect_pivots_characterization (highs lows : List ℚ) (order i : ℕ)
    (hord : 1 ≤ order) :
    ((detect_support_resistance_pivots highs lows order).2 =
        (argrelextrema cmpGreater highs order).filterMap fun k => highs[k]?) ∧
    ((detect_support_resistance_pivots highs lows order).1 =
        (argrelextrema cmpLess lows order).filterMap fun k => lows[k]?) ∧
    (i ∈ argrelextrema cmpGreater highs order ↔
      0 < i ∧ i + 1 < highs.length ∧
        ∀ j < highs.length, i - order ≤ j → j ≤ i + order → j ≠ i →
          highs.getD j 0 < highs.getD i 0) ∧
    (i ∈ argrelextrema cmpLess lows order ↔
      0 < i ∧ i + 1 < lows.length ∧
        ∀ j < lows.length, i - order ≤ j → j ≤ i + order → j ≠ i →
          lows.getD i 0 < lows.getD j 0) := by
  refine ⟨rfl, rfl, ?_, ?_⟩
  · rw [argrelextrema_mem_iff cmpGreater (fun a => by simp [cmpGreater])
      highs order i hord]
    simp [cmpGreater]
  · rw [argrelextrema_mem_iff cmpLess (fun a => by simp [cmpLess])
      lows order i hord]
    simp [cmpLess]

/-- Witness for C1's amended characterization: with `order = 1` the
middle bar of `[1, 5, 1]` is a resistance pivot and the middle bar of
`[5, 1, 5]` is a support pivot. -/
theorem detect_pivots_characterization_witness :
    1 ∈ argrelextrema cmpGreater [1, 5, 1] 1 ∧
      1 ∈ argrelextrema cmpLess [5, 1, 5] 1 :=
  ⟨((detect_pivots_characterization [1, 5, 1] [5, 1, 5] 1 1
        (le_refl 1)).2.2.1).mpr (by decide),
    ((detect_pivots_characterization [1, 5, 1] [5, 1, 5] 1 1
        (le_refl 1)).2.2.2).mpr (by decide)⟩

/-- Counterexample to C1 as stated: on the highs `[0, 10, 1, 1, 1, 1, 1]`
with `pivot_order = 5`, the code marks index 1 — a bar among the first
`pivot_order` bars — as a local maximum (its clipped left comparisons
only ever see index 0), and returns its high 10 as a resistance
candidate, while the claim's rule (`pivot_order` neighbors required on
both sides) marks nothing. -/
theorem detect_pivots_boundary_counterexample :
    (detect_support_resistance_pivots [0, 10, 1, 1, 1, 1, 1]
        [0, 0, 0, 0, 0, 0, 0] 5).2 = [10] ∧
      argrelextrema cmpGreater [0, 10, 1, 1, 1, 1, 1] 5 = [1] ∧
      (1 : ℕ) < 5 ∧
      claimPivotIdx cmpGreater [0, 10, 1, 1, 1, 1, 1] 5 = [] := by
  decide

/-! ### Loader lemmas -/

/-- C3 (amended): whenever `load_prices` succeeds, the rows it returns
are sorted by the chosen timestamp column in non-decreasing order
(duplicate timestamps are NOT dropped, so the order need not be strict)
and every returned row has a parsed timestamp and non-null
Open/High/Low/Close fields. -/
theorem load_prices_success_invariants (T : RawTable) (out : List RawRow)
    (c : DateCol) (h : load_prices T = .ok (out, c)) :
    List.Chain' (rowLe c) out ∧
      ∀ r ∈ out, (chosenDate c r).isSome = true ∧ r.Open.isSome = true ∧
        r.High.isSome = true ∧ r.Low.isSome = true ∧ r.Close.isSome = true := by
  unfold load_prices at h
  split at h
  · exact absurd h (by simp)
  · split at h
    · split at h
      · exact absurd h (by simp)
      · simp only [Except.ok.injEq, Prod.mk.injEq] at h
        obtain ⟨hout, hcc⟩ := h
        subst hcc
        rw [← hout]
        constructor
        · exact (List.sorted_insertionSort _ _).chain'
        · intro r hr
          rw [List.mem_insertionSort] at hr
          have := (List.mem_filter.mp hr).2
          simpa [completeRow, and_assoc] using this
    · exact absurd h (by simp)

/-- Witness for C3 at a one-row table with every column present. -/
theorem load_prices_success_invariants_witness :
    List.Chain' (rowLe DateCol.Datetime)
        [(⟨some 0, some 0, some 1, some 1, some 1, some 1⟩ : RawRow)] ∧
      ∀ r ∈ [(⟨some 0, some 0, some 1, some 1, some 1, some 1⟩ : RawRow)],
        (chosenDate DateCol.Datetime r).isSome = true ∧ r.Open.isSome = true ∧
          r.High.isSome = true ∧ r.Low.isSome = true ∧ r.Close.isSome = true :=
  load_prices_success_invariants
    ⟨true, true, true, true, true, true,
      [⟨some 0, some 0, some 1, some 1, some 1, some 1⟩]⟩
    [⟨some 0, some 0, some 1, some 1, some 1, some 1⟩] DateCol.Datetime
    (by rfl)

/-- Counterexample to C3 as stated: a well-formed table whose two rows
carry the same timestamp loads successfully with both rows kept, so the
returned timestamps are NOT strictly increasing (duplicates are not
dropped by `load_prices`). -/
theorem load_prices_duplicate_counterexample :
    load_prices
        ⟨false, true, true, true, true, true,
          [⟨none, some 7, some 1, some 1, some 1, some 1⟩,
            ⟨none, some 7, some 1, some 1, some 1, some 1⟩]⟩ =
      .ok ([⟨none, some 7, some 1, some 1, some 1, some 1⟩,
        ⟨none, some 7, some 1, some 1, some 1, some 1⟩], DateCol.Date) ∧
    ¬ List.Chain' (fun a b =>
        (chosenDate DateCol.Date a).getD 0 < (chosenDate DateCol.Date b).getD 0)
      [(⟨none, some 7, some 1, some 1, some 1, some 1⟩ : RawRow),
        ⟨none, some 7, some 1, some 1, some 1, some 1⟩] := by
  refine ⟨by rfl, ?_⟩
  simp [List.chain'_cons, chosenDate]

/-- C4 (amended): `load_prices` raises the missing-timestamp-column
`ValueError` exactly when neither a Datetime nor a Date column is
present; when a timestamp column exists but any of the Open, High, Low
or Close columns is missing it raises pandas' `KeyError` from
`dropna(subset=...)` — a different error from the timestamp format
`ValueError` — rather than succeeding; it raises the empty-data
`ValueError` exactly when all required columns exist but no row survives
the cleaning; and it succeeds exactly when all required columns exist
and at least one row survives. -/
theorem load_prices_error_characterization (T : RawTable) :
    (load_prices T = .error .formatError ↔
      T.hasDatetime = false ∧ T.hasDate = false) ∧
    (load_prices T = .error .keyError ↔
      (T.hasDatetime = true ∨ T.hasDate = true) ∧
        (T.hasOpen && T.hasHigh && T.hasLow && T.hasClose) = false) ∧
    (load_prices T = .error .emptyError ↔
      (T.hasDatetime = true ∨ T.hasDate = true) ∧
        (T.hasOpen && T.hasHigh && T.hasLow && T.hasClose) = true ∧
        keptRows T = []) ∧
    ((∃ v, load_prices T = .ok v) ↔
      (T.hasDatetime = true ∨ T.hasDate = true) ∧
        (T.hasOpen && T.hasHigh && T.hasLow && T.hasClose) = true ∧
        keptRows T ≠ []) := by
  unfold load_prices keptRows chosenCol
  rcases hdt : T.hasDatetime with - | - <;> rcases hd : T.hasDate with - | - <;>
    rcases hcols : (T.hasOpen && T.hasHigh && T.hasLow && T.hasClose)
      with - | - <;>
    by_cases hk : (T.rows.filter (completeRow .Datetime)).isEmpty = true <;>
    by_cases hk2 : (T.rows.filter (completeRow .Date)).isEmpty = true <;>
    simp_all [List.isEmpty_iff, -List.filter_eq_nil_iff]

/-- Counterexample to C4 as stated: a table with a Date column and a
Close column but no Open/High/Low raises the `KeyError` from
`dropna(subset=...)` — it neither raises the timestamp-format
`ValueError` (as the claim's scenario asserts) nor succeeds (as the
claim's "succeeds in every other case" asserts). -/
theorem load_prices_missing_ohlc_counterexample :
    load_prices
        ⟨false, true, false, false, false, true,
          [⟨none, some 7, none, none, none, some 1⟩]⟩ =
      .error .keyError ∧
    LoadError.keyError ≠ LoadError.formatError ∧
    ∀ v, load_prices
        ⟨false, true, false, false, false, true,
          [⟨none, some 7, none, none, none, some 1⟩]⟩ ≠ .ok v := by
  refine ⟨by rfl, by simp, ?_⟩
  intro v
  simp [load_prices, chosenCol]

/-! ### Aligner lemmas -/

/-- Forward filling a column whose non-null entries all carry the value
`v` produces only nulls and `v`s. -/
theorem ffill_some_const (v : ℚ) :
    ∀ (l : List (Option ℚ)) (last : Option ℚ),
      (∀ x ∈ l, x = none ∨ x = some v) → (last = none ∨ last = some v) →
      ∀ y ∈ ffill last l, y = none ∨ y = some v := by
  intro l
  induction l with
  | nil =>
      intro last _ _ y hy
      simp [ffill] at hy
  | cons a rest ih =>
      intro last hl hlast y hy
      rcases ha : a with - | c
      · rw [ha] at hy
        simp only [ffill, List.mem_cons] at hy
        rcases hy with rfl | hy
        · exact hlast
        · exact ih last (fun x hx => hl x (List.mem_cons_of_mem a hx)) hlast y hy
      · rw [ha] at hy
        have hc : some c = some v := by
          rcases hl a (List.mem_cons_self a rest) with h' | h'
          · rw [ha] at h'
            exact absurd h' (by simp)
          · rw [← ha, h']
        simp only [ffill, List.mem_cons] at hy
        rcases hy with rfl | hy
        · exact Or.inr hc
        · exact ih (some c)
            (fun x hx => hl x (List.mem_cons_of_mem a hx)) (Or.inr hc) y hy

/-- When every bar of a series closes at `v`, every row of its filled
reindexing also closes at `v` (forward fill only propagates `v`). -/
theorem fill_missing_close_const (df : List Bar) (idx : List ℤ) (v : ℚ)
    (h : ∀ b ∈ df, b.Close = v) :
    ∀ p ∈ fill_missing df idx, p.2.Close = v := by
  intro p hp
  simp only [fill_missing, List.mem_filterMap] at hp
  obtain ⟨pc, hpc, heq⟩ := hp
  rcases hc : pc.2 with - | c
  · rw [hc] at heq
    exact absurd heq (by simp)
  · rw [hc] at heq
    simp only [Option.some.injEq] at heq
    subst heq
    have hmem : pc.2 ∈ ffill none
        ((reindexOn df idx).map fun q => q.2.map Bar.Close) :=
      (List.of_mem_zip hpc).2
    rw [hc] at hmem
    have hpre : ∀ x ∈ (reindexOn df idx).map fun q => q.2.map Bar.Close,
        x = none ∨ x = some v := by
      intro x hx
      obtain ⟨q, hq, rfl⟩ := List.mem_map.mp hx
      simp only [reindexOn, List.mem_map] at hq
      obtain ⟨u, -, rfl⟩ := hq
      rcases hf : df.find? (fun r => decide (r.ts = u)) with - | b
      · simp only [hf]
        simp
      · have hb : b ∈ df := List.mem_of_find?_eq_some hf
        simp only [hf]
        simp [h b hb]
    have := ffill_some_const v _ none hpre (Or.inl rfl) (some c) hmem
    rcases this with h' | h'
    · exact absurd h' (by simp)
    · simpa using h'

/-- When both input series close at the constant `v` on every bar, every
surviving row of the ratio series has close ratio exactly 1. -/
theorem align_and_ratio_close_const (dfa dfb : List Bar) (v : ℚ)
    (ha : ∀ b ∈ dfa, b.Close = v) (hb : ∀ b ∈ dfb, b.Close = v) :
    ∀ p ∈ align_and_ratio dfa dfb, p.2.Close = 1 := by
  intro p hp
  simp only [align_and_ratio, List.mem_filterMap] at hp
  obtain ⟨u, -, heq⟩ := hp
  rcases h1 : (fill_missing dfa (unionIndex dfa dfb)).find?
      (fun q => decide (q.1 = u)) with - | p1
  · rw [h1] at heq
    exact absurd heq (by simp)
  · rw [h1] at heq
    rcases h2 : (fill_missing dfb (unionIndex dfa dfb)).find?
        (fun q => decide (q.1 = u)) with - | p2
    · rw [h2] at heq
      exact absurd heq (by simp)
    · rw [h2] at heq
      simp at heq
      obtain ⟨hcond, heq⟩ := heq
      subst heq
      have hp1 : p1 ∈ fill_missing dfa (unionIndex dfa dfb) :=
        List.mem_of_find?_eq_some h1
      have hp2 : p2 ∈ fill_missing dfb (unionIndex dfa dfb) :=
        List.mem_of_find?_eq_some h2
      have hv1 : p1.2.Close = v :=
        fill_missing_close_const dfa (unionIndex dfa dfb) v ha p1 hp1
      have hv2 : p2.2.Close = v :=
        fill_missing_close_const dfb (unionIndex dfa dfb) v hb p2 hp2
      show p1.2.Close / p2.2.Close = 1
      rw [hv1, hv2]
      exact div_self (hv2 ▸ hcond.2.2.2)

/-- C8: comparing a series with itself over the same filtered date range
yields a ratio series whose every surviving row has close ratio exactly
1 (rows with a zero close are dropped by the non-finite filter). -/
theorem align_and_ratio_self_ones (df : List Bar) (s e : ℤ) :
    ∀ p ∈ align_and_ratio (filter_by_date df s e) (filter_by_date df s e),
      p.2.Close = 1 := by
  intro p hp
  simp only [align_and_ratio, List.mem_filterMap] at hp
  obtain ⟨u, -, heq⟩ := hp
  rcases h1 : (fill_missing (filter_by_date df s e)
      (unionIndex (filter_by_date df s e) (filter_by_date df s e))).find?
      (fun q => decide (q.1 = u)) with - | p1
  · rw [h1] at heq
    exact absurd heq (by simp)
  · rw [h1] at heq
    simp at heq
    obtain ⟨hcond, heq⟩ := heq
    subst heq
    show p1.2.Close / p1.2.Close = 1
    exact div_self hcond.2.2.2

/-- Counterexample to C2 as stated: on seriesA with dates 1,2,3 and
seriesB with dates 2,3,4 (all closes 100), the aligner's ratio domain is
[2, 3, 4], not {2, 3}: timestamp 4 lies after seriesA's last bar, so
seriesA's close is forward-filled there and the row survives — only
timestamps before a series' FIRST bar (here timestamp 1 for seriesB) are
dropped. -/
theorem ratio_scenario_domain_counterexample :
    (align_and_ratio
        [⟨1, 100, 100, 100, 100⟩, ⟨2, 100, 100, 100, 100⟩,
          ⟨3, 100, 100, 100, 100⟩]
        [⟨2, 100, 100, 100, 100⟩, ⟨3, 100, 100, 100, 100⟩,
          ⟨4, 100, 100, 100, 100⟩]).map Prod.fst = [2, 3, 4] ∧
      ([2, 3, 4] : List ℤ) ≠ [2, 3] :=
  ⟨by decide, by decide⟩

/-- C2 (amended): for seriesA with dates 1,2,3 and seriesB with dates
2,3,4, all bars at close 100, the aligner produces a ratio series whose
domain is exactly {2, 3, 4} — timestamp 1 is dropped (before seriesB's
first bar), timestamp 4 is kept via forward fill of seriesA — and every
ratio is 1.0. -/
theorem ratio_scenario_aligned :
    (align_and_ratio
        [⟨1, 100, 100, 100, 100⟩, ⟨2, 100, 100, 100, 100⟩,
          ⟨3, 100, 100, 100, 100⟩]
        [⟨2, 100, 100, 100, 100⟩, ⟨3, 100, 100, 100, 100⟩,
          ⟨4, 100, 100, 100, 100⟩]).map Prod.fst = [2, 3, 4] ∧
      ∀ p ∈ align_and_ratio
        [⟨1, 100, 100, 100, 100⟩, ⟨2, 100, 100, 100, 100⟩,
          ⟨3, 100, 100, 100, 100⟩]
        [⟨2, 100, 100, 100, 100⟩, ⟨3, 100, 100, 100, 100⟩,
          ⟨4, 100, 100, 100, 100⟩], p.2.Close = 1 :=
  ⟨by decide, align_and_ratio_close_const _ _ 100 (by decide) (by decide)⟩

/-- Evaluation of the self-ratio pipeline on a one-bar series. -/
theorem ratio_self_eval :
    align_and_ratio (filter_by_date [⟨0, 1, 1, 1, 1⟩] 0 0)
        (filter_by_date [⟨0, 1, 1, 1, 1⟩] 0 0) =
      [((0 : ℤ), (⟨0, 1, 1, 1, 1⟩ : Bar))] := by
  norm_num [align_and_ratio, unionIndex, fill_missing, reindexOn, ffill,
    filter_by_date, List.insertionSort, List.orderedInsert, List.dedup,
    List.find?, List.filter, List.filterMap]

/-- Witness for C8 at a one-bar series over the single-day range 0..0. -/
theorem align_and_ratio_self_ones_witness :
    (((0 : ℤ), (⟨0, 1, 1, 1, 1⟩ : Bar)) : ℤ × Bar).2.Close = 1 :=
  align_and_ratio_self_ones [⟨0, 1, 1, 1, 1⟩] 0 0 (0, ⟨0, 1, 1, 1, 1⟩)
    (by rw [ratio_self_eval]; exact List.mem_singleton.mpr rfl)
